import Mathlib

-- Verification development for the Brackets-Themes ThemeManager
-- (src/ThemeManager.js). Stylesheet text is modelled as List Char; the
-- jQuery/Brackets collaborators (filesystem, less compiler, style
-- injection, editor view) are modelled as explicit oracle parameters,
-- and the observable side effects of the promise chains are recorded as
-- explicit event traces. Recursions over the scanned text are written
-- with an explicit fuel argument (any fuel at least the length of the
-- text computes the fixed point), so every definition evaluates inside
-- the kernel.

set_option maxRecDepth 8000

/-- Model of the closing-delimiter search inside the global replace with
`commentRegex = /\/\*([\s\S]*?)\*\//mg` (ThemeManager.js line 22):
`findClose l` returns the suffix of `l` following the first occurrence of
the two-character closer `*/`, or `none` when no closer occurs. -/
def findClose : List Char → Option (List Char)
  | a :: b :: rest => if a = '*' ∧ b = '/' then some rest else findClose (b :: rest)
  | _ => none

theorem findClose_length (l : List Char) :
    ∀ r, findClose l = some r → r.length + 2 ≤ l.length := by
  induction l with
  | nil => intro r h; simp [findClose] at h
  | cons a tail ih =>
    intro r h
    cases tail with
    | nil => simp [findClose] at h
    | cons b rest =>
      rw [findClose] at h
      split at h
      · cases h
        simp
      · have := ih r h
        simp at this ⊢
        omega

/-- Fueled model of `content.replace(commentRegex, "")` (ThemeManager.js
line 81): the JS regex engine repeatedly finds the leftmost `/*`, lazily
matches up to the first following `*/`, deletes the matched span and
resumes scanning after it; an unterminated `/*` never matches, and once a
`/*` has no later closer nothing to its right can match either. Any fuel
of at least the text length computes the true result. -/
def stripCommentsF : Nat → List Char → List Char
  | 0, l => l
  | _ + 1, [] => []
  | _ + 1, [c] => [c]
  | fuel + 1, a :: b :: rest =>
    if a = '/' ∧ b = '*' then
      match findClose rest with
      | some r => stripCommentsF fuel r
      | none => a :: b :: rest
    else
      a :: stripCommentsF fuel (b :: rest)

/-- Model of `content.replace(commentRegex, "")` (ThemeManager.js line 81). -/
def stripComments (l : List Char) : List Char :=
  stripCommentsF l.length l

theorem stripCommentsF_congr :
    ∀ f1 f2 l, l.length ≤ f1 → l.length ≤ f2 →
      stripCommentsF f1 l = stripCommentsF f2 l := by
  intro f1
  induction f1 with
  | zero =>
    intro f2 l h1 _
    have : l = [] := List.length_eq_zero.mp (Nat.le_zero.mp h1)
    subst this
    cases f2 <;> simp [stripCommentsF]
  | succ f ih =>
    intro f2 l h1 h2
    cases l with
    | nil => cases f2 <;> simp [stripCommentsF]
    | cons a tail =>
      cases tail with
      | nil =>
        cases f2 with
        | zero => simp at h2
        | succ g => simp [stripCommentsF]
      | cons b rest =>
        cases f2 with
        | zero => simp at h2
        | succ g =>
          simp only [stripCommentsF]
          split
          · split
            · rename_i r hr
              have hlen := findClose_length rest r hr
              simp only [List.length_cons] at h1 h2
              exact ih g r (by omega) (by omega)
            · rfl
          · simp only [List.length_cons] at h1 h2
            rw [ih g (b :: rest) (by simp; omega) (by simp; omega)]

theorem stripComments_nil : stripComments [] = [] := rfl

theorem stripComments_single (c : Char) : stripComments [c] = [c] := rfl

theorem stripComments_cons2 (a b : Char) (rest : List Char) :
    stripComments (a :: b :: rest) =
      if a = '/' ∧ b = '*' then
        match findClose rest with
        | some r => stripComments r
        | none => a :: b :: rest
      else
        a :: stripComments (b :: rest) := by
  show stripCommentsF (rest.length + 2) (a :: b :: rest) = _
  simp only [stripCommentsF]
  split
  · split
    · rename_i r hr
      have := findClose_length rest r hr
      exact stripCommentsF_congr _ _ r (by omega) (by omega)
    · rfl
  · rw [stripCommentsF_congr (rest.length + 1) (b :: rest).length (b :: rest)
      (by simp) (by simp)]
    rfl

/-- Does the comment regex match anywhere in the string: some `/*` followed
(at distance at least two) by a `*/`. When a `/*` has no later closer, no
match can begin at or after it, so the scan may stop there. -/
def hasComment : List Char → Bool
  | a :: b :: rest =>
    if a = '/' ∧ b = '*' then (findClose rest).isSome else hasComment (b :: rest)
  | _ => false

theorem stripComments_of_not_hasComment (l : List Char)
    (h : hasComment l = false) : stripComments l = l := by
  induction l with
  | nil => rfl
  | cons a tail ih =>
    cases tail with
    | nil => rfl
    | cons b rest =>
      rw [hasComment] at h
      rw [stripComments_cons2]
      split
      · rename_i hab
        rw [if_pos hab] at h
        split
        · rename_i r hr
          rw [hr] at h
          simp at h
        · rfl
      · rename_i hab
        rw [if_neg hab] at h
        rw [ih h]

theorem stripCommentsF_length_le (fuel : Nat) :
    ∀ l, (stripCommentsF fuel l).length ≤ l.length := by
  induction fuel with
  | zero => intro l; simp [stripCommentsF]
  | succ f ih =>
    intro l
    match l with
    | [] => simp [stripCommentsF]
    | [c] => simp [stripCommentsF]
    | a :: b :: rest =>
      simp only [stripCommentsF]
      split
      · split
        · rename_i r hr
          have h1 := ih r
          have h2 := findClose_length rest r hr
          simp
          omega
        · simp
      · have := ih (b :: rest)
        simp at this ⊢
        omega

theorem stripComments_length_le (l : List Char) :
    (stripComments l).length ≤ l.length :=
  stripCommentsF_length_le l.length l

theorem stripComments_lt_of_hasComment (l : List Char)
    (h : hasComment l = true) : (stripComments l).length < l.length := by
  induction l with
  | nil => simp [hasComment] at h
  | cons a tail ih =>
    cases tail with
    | nil => simp [hasComment] at h
    | cons b rest =>
      rw [hasComment] at h
      rw [stripComments_cons2]
      split
      · rename_i hab
        rw [if_pos hab] at h
        split
        · rename_i r hr
          have h1 := stripComments_length_le r
          have h2 := findClose_length rest r hr
          simp
          omega
        · rename_i hr
          rw [hr] at h
          simp at h
      · rename_i hab
        rw [if_neg hab] at h
        have := ih h
        simp at this ⊢
        omega

/-- C3: `stripComments` is idempotent: for every input `x`,
`stripComments (stripComments x) = stripComments x`.
This fails: deleting a comment can splice the surrounding text into a new
`/* ... */` match. On `//*x*/*y*/` the first pass removes `/*x*/` leaving
`/*y*/`, and a second pass removes that too. -/
theorem stripComments_not_idempotent :
    stripComments (stripComments ("//*x*/*y*/".data)) ≠
      stripComments ("//*x*/*y*/".data) := by
  decide

/-- C3 (amended): `stripComments` is idempotent at `x` exactly when its
output on `x` contains no remaining comment (no `/*` opener with a later
`*/` closer); in general a second application can strip newly spliced
comments, so idempotence does not hold for all inputs. -/
theorem stripComments_idempotent_iff (x : List Char) :
    stripComments (stripComments x) = stripComments x ↔
      hasComment (stripComments x) = false := by
  constructor
  · intro h
    by_contra hc
    simp at hc
    have := stripComments_lt_of_hasComment (stripComments x) hc
    rw [h] at this
    omega
  · intro h
    exact stripComments_of_not_hasComment (stripComments x) h

/-- Selector characters admitted by the leading `(?:[^}|,]*)` of
`scrollbarsRegex = /(?:[^}|,]*)::-webkit-scrollbar(?:[\s\S]*?){(?:[\s\S]*?)}/mg`
(ThemeManager.js line 23). -/
def validSel (c : Char) : Bool := !(c == '}' || c == '|' || c == ',')

/-- The literal component of `scrollbarsRegex`. -/
def scrollbarLit : List Char := "::-webkit-scrollbar".data

/-- Boolean prefix test used to model matching the literal component. -/
def leadsWith : List Char → List Char → Bool
  | [], _ => true
  | _ :: _, [] => false
  | a :: as, b :: bs => a == b && leadsWith as bs

/-- Split at the first occurrence of character `c`: returns the segment up
to and including `c`, and the remainder. Models the lazy groups
`(?:[\s\S]*?){` and `(?:[\s\S]*?)}` of `scrollbarsRegex`, which consume up
to the first `{` (resp. `}`). -/
def splitAtChar (c : Char) : List Char → Option (List Char × List Char)
  | [] => none
  | x :: xs =>
    if x = c then some ([x], xs)
    else
      match splitAtChar c xs with
      | some (a, b) => some (x :: a, b)
      | none => none

/-- One backtracking attempt of `scrollbarsRegex` at the start of `l`, with
the greedy selector prefix `(?:[^}|,]*)` bound to exactly `j` characters:
the literal must follow, then the lazy groups find the first `{` and the
first `}` after it. Returns the matched span and the remainder. -/
def tryJ (l : List Char) (j : Nat) : Option (List Char × List Char) :=
  if leadsWith scrollbarLit (l.drop j) = true then
    match splitAtChar '{' (l.drop (j + scrollbarLit.length)) with
    | none => none
    | some (a1, t1) =>
      match splitAtChar '}' t1 with
      | none => none
      | some (a2, rest) => some (l.take j ++ scrollbarLit ++ a1 ++ a2, rest)
  else none

/-- Greedy backtracking over the selector prefix length: the engine first
consumes the maximal run of `[^}|,]` characters and gives characters back
one at a time, so the largest workable `j` wins. -/
def tryDown (l : List Char) : Nat → Option (List Char × List Char)
  | 0 => tryJ l 0
  | j + 1 =>
    match tryJ l (j + 1) with
    | some r => some r
    | none => tryDown l j

/-- Length of the maximal run of selector characters at the start of `l`:
the initial consumption of the greedy `(?:[^}|,]*)`. -/
def maxRun (l : List Char) : Nat := (l.takeWhile validSel).length

/-- A full match attempt of `scrollbarsRegex` anchored at the start of `l`. -/
def matchAt (l : List Char) : Option (List Char × List Char) :=
  tryDown l (maxRun l)

theorem leadsWith_length : ∀ p l, leadsWith p l = true → p.length ≤ l.length := by
  intro p
  induction p with
  | nil => intro l _; simp
  | cons a as ih =>
    intro l h
    cases l with
    | nil => simp [leadsWith] at h
    | cons b bs =>
      rw [leadsWith] at h
      simp at h ⊢
      exact ih bs h.2

theorem splitAtChar_length (c : Char) :
    ∀ l a b, splitAtChar c l = some (a, b) →
      a.length + b.length = l.length ∧ 0 < a.length := by
  intro l
  induction l with
  | nil => intro a b h; simp [splitAtChar] at h
  | cons x xs ih =>
    intro a b h
    rw [splitAtChar] at h
    split at h
    · cases h
      simp only [List.length_cons, List.length_nil]
      omega
    · split at h
      · rename_i a1 b1 hp
        cases h
        have := ih _ _ hp
        simp at this ⊢
        omega
      · cases h

theorem tryJ_length (l : List Char) (j : Nat) :
    ∀ m r, tryJ l j = some (m, r) → r.length < l.length := by
  intro m r h
  rw [tryJ] at h
  split at h
  · rename_i hpre
    have hlit := leadsWith_length _ _ hpre
    split at h
    · cases h
    · rename_i a1 t1 h1
      have hs1 := splitAtChar_length '{' _ a1 t1 h1
      split at h
      · cases h
      · rename_i a2 rest h2
        have hs2 := splitAtChar_length '}' _ a2 rest h2
        cases h
        simp [List.length_drop, scrollbarLit] at hlit hs1
        omega
  · cases h

theorem tryDown_length (l : List Char) :
    ∀ k m r, tryDown l k = some (m, r) → r.length < l.length := by
  intro k
  induction k with
  | zero => intro m r h; exact tryJ_length l 0 m r h
  | succ j ih =>
    intro m r h
    rw [tryDown] at h
    cases htj : tryJ l (j + 1) with
    | some p =>
      rw [htj] at h
      have hp : p = (m, r) := by simpa using h
      subst hp
      exact tryJ_length l (j + 1) m r htj
    | none =>
      rw [htj] at h
      exact ih m r h

theorem matchAt_length (l : List Char) (m r : List Char)
    (h : matchAt l = some (m, r)) : r.length < l.length :=
  tryDown_length l (maxRun l) m r h

/-- Fueled model of `content.replace(scrollbarsRegex, fn)` with a push of
every match into the `scrollbar` list (ThemeManager.js lines 82-85): the
engine attempts a match at each position left to right, deletes each match
from the content, collects it, and resumes right after the matched span.
Any fuel of at least the text length computes the true result. -/
def extractLoopF : Nat → List Char → List Char × List (List Char)
  | 0, l => (l, [])
  | _ + 1, [] => ([], [])
  | fuel + 1, c :: rest =>
    match matchAt (c :: rest) with
    | some (m, r) =>
      let p := extractLoopF fuel r
      (p.1, m :: p.2)
    | none =>
      let p := extractLoopF fuel rest
      (c :: p.1, p.2)

/-- Model of the scrollbar-rule extraction pass of `scrollbarsRegex` over a
text (ThemeManager.js lines 82-85), returning the residual content and the
matched rule blocks in source order. -/
def extractLoop (l : List Char) : List Char × List (List Char) :=
  extractLoopF l.length l

theorem extractLoopF_congr :
    ∀ f1 f2 l, l.length ≤ f1 → l.length ≤ f2 →
      extractLoopF f1 l = extractLoopF f2 l := by
  intro f1
  induction f1 with
  | zero =>
    intro f2 l h1 _
    have : l = [] := List.length_eq_zero.mp (Nat.le_zero.mp h1)
    subst this
    cases f2 <;> simp [extractLoopF]
  | succ f ih =>
    intro f2 l h1 h2
    cases l with
    | nil => cases f2 <;> simp [extractLoopF]
    | cons c rest =>
      cases f2 with
      | zero => simp at h2
      | succ g =>
        cases hm : matchAt (c :: rest) with
        | some p =>
          obtain ⟨m, r⟩ := p
          have hr := matchAt_length (c :: rest) m r hm
          simp only [List.length_cons] at h1 h2 hr
          simp only [extractLoopF, hm]
          rw [ih g r (by omega) (by omega)]
        | none =>
          simp only [List.length_cons] at h1 h2
          simp only [extractLoopF, hm]
          rw [ih g rest (by omega) (by omega)]

theorem extractLoop_nil : extractLoop [] = ([], []) := rfl

theorem extractLoop_cons (c : Char) (rest : List Char) :
    extractLoop (c :: rest) =
      match matchAt (c :: rest) with
      | some (m, r) => ((extractLoop r).1, m :: (extractLoop r).2)
      | none => (c :: (extractLoop rest).1, (extractLoop rest).2) := by
  cases hm : matchAt (c :: rest) with
  | some p =>
    obtain ⟨m, r⟩ := p
    have hr := matchAt_length (c :: rest) m r hm
    simp only [List.length_cons] at hr
    show extractLoopF (rest.length + 1) (c :: rest) = _
    simp only [extractLoopF, hm]
    unfold extractLoop
    rw [extractLoopF_congr rest.length r.length r (by omega) (by omega)]
  | none =>
    show extractLoopF (rest.length + 1) (c :: rest) = _
    simp only [extractLoopF, hm]
    rfl

/-- The `{content, scrollbar}` record returned by `extractScrollbars`
(ThemeManager.js lines 87-90). -/
structure Extracted where
  content : List Char
  scrollbar : List (List Char)
deriving DecidableEq, Repr

/-- Model of `extractScrollbars` (ThemeManager.js lines 75-91): strip the
block comments, then extract every scrollbar rule block via
`scrollbarsRegex`, in that order. -/
def extractScrollbars (content : List Char) : Extracted :=
  let stripped := stripComments content
  let p := extractLoop stripped
  ⟨p.1, p.2⟩

/-- Does `scrollbarsRegex` match anywhere in `l` (at any start position)? -/
def existsMatch : List Char → Bool
  | [] => false
  | c :: rest => (matchAt (c :: rest)).isSome || existsMatch rest

theorem leadsWith_append (p : List Char) :
    ∀ l t, leadsWith p l = true → leadsWith p (l ++ t) = true := by
  induction p with
  | nil => intro l t _; rfl
  | cons a as ih =>
    intro l t h
    cases l with
    | nil => simp [leadsWith] at h
    | cons b bs =>
      rw [leadsWith] at h
      simp at h
      rw [List.cons_append, leadsWith]
      simp [h.1]
      exact ih bs t h.2

theorem splitAtChar_append (c : Char) :
    ∀ l t a b, splitAtChar c l = some (a, b) →
      splitAtChar c (l ++ t) = some (a, b ++ t) := by
  intro l
  induction l with
  | nil => intro t a b h; simp [splitAtChar] at h
  | cons x xs ih =>
    intro t a b h
    rw [splitAtChar] at h
    rw [List.cons_append, splitAtChar]
    split at h
    · rename_i hc
      cases h
      rw [if_pos hc]
    · rename_i hc
      rw [if_neg hc]
      split at h
      · rename_i a1 b1 hp
        cases h
        simp [ih t _ _ hp]
      · cases h

theorem tryJ_append (l t : List Char) (j : Nat) (m r : List Char)
    (h : tryJ l j = some (m, r)) : (tryJ (l ++ t) j).isSome = true := by
  rw [tryJ] at h
  split at h
  · rename_i hpre
    have hlen := leadsWith_length _ _ hpre
    rw [List.length_drop] at hlen
    have hL : 0 < scrollbarLit.length := by decide
    have hj : j + scrollbarLit.length ≤ l.length := by omega
    cases h1 : splitAtChar '{' (l.drop (j + scrollbarLit.length)) with
    | none => simp [h1] at h
    | some p1 =>
      obtain ⟨a1, t1⟩ := p1
      cases h2 : splitAtChar '}' t1 with
      | none => simp [h1, h2] at h
      | some p2 =>
        obtain ⟨a2, rest⟩ := p2
        have e1 : (l ++ t).drop j = l.drop j ++ t :=
          List.drop_append_of_le_length (by omega)
        have e2 : (l ++ t).drop (j + scrollbarLit.length) =
            l.drop (j + scrollbarLit.length) ++ t :=
          List.drop_append_of_le_length hj
        have e4 := leadsWith_append scrollbarLit (l.drop j) t hpre
        have e5 := splitAtChar_append '{' _ t _ _ h1
        have e6 := splitAtChar_append '}' _ t _ _ h2
        rw [tryJ, e1, if_pos e4, e2, e5]
        simp [e6]
  · exact Option.noConfusion h

theorem tryDown_of_tryJ (l : List Char) :
    ∀ k j, j ≤ k → (tryJ l j).isSome = true → (tryDown l k).isSome = true := by
  intro k
  induction k with
  | zero =>
    intro j hj h
    have : j = 0 := Nat.le_zero.mp hj
    subst this
    rw [tryDown]
    exact h
  | succ n ih =>
    intro j hj h
    rw [tryDown]
    cases htj : tryJ l (n + 1) with
    | some p => simp [htj]
    | none =>
      have hjn : j ≤ n := by
        rcases Nat.lt_or_ge j (n + 1) with h1 | h1
        · omega
        · have : j = n + 1 := by omega
          subst this
          rw [htj] at h
          simp at h
      simpa [htj] using ih j hjn h

theorem tryDown_exists_tryJ (l : List Char) :
    ∀ k, (tryDown l k).isSome = true →
      ∃ j, j ≤ k ∧ (tryJ l j).isSome = true := by
  intro k
  induction k with
  | zero =>
    intro h
    rw [tryDown] at h
    exact ⟨0, Nat.le_refl 0, h⟩
  | succ n ih =>
    intro h
    rw [tryDown] at h
    cases htj : tryJ l (n + 1) with
    | some p => exact ⟨n + 1, Nat.le_refl _, by simp [htj]⟩
    | none =>
      obtain ⟨j, hj, hs⟩ := ih (by simpa [htj] using h)
      exact ⟨j, by omega, hs⟩

theorem maxRun_le_append (l t : List Char) : maxRun l ≤ maxRun (l ++ t) := by
  induction l with
  | nil => simp [maxRun]
  | cons c l2 ih =>
    simp only [maxRun, List.cons_append, List.takeWhile_cons] at ih ⊢
    cases hv : validSel c
    · simp [hv]
    · simpa [hv] using ih

theorem matchAt_append (l t : List Char) (h : (matchAt l).isSome = true) :
    (matchAt (l ++ t)).isSome = true := by
  unfold matchAt at h ⊢
  obtain ⟨j, hj, hs⟩ := tryDown_exists_tryJ l (maxRun l) h
  cases htj : tryJ l j with
  | none => rw [htj] at hs; simp at hs
  | some p =>
    obtain ⟨m, r⟩ := p
    exact tryDown_of_tryJ (l ++ t) (maxRun (l ++ t)) j
      (Nat.le_trans hj (maxRun_le_append l t)) (tryJ_append l t j m r htj)

theorem existsMatch_append_right (l t : List Char) (h : existsMatch l = true) :
    existsMatch (l ++ t) = true := by
  induction l with
  | nil => simp [existsMatch] at h
  | cons c rest ih =>
    rw [existsMatch] at h
    rw [List.cons_append, existsMatch]
    simp only [Bool.or_eq_true] at h ⊢
    rcases h with h | h
    · left
      have := matchAt_append (c :: rest) t h
      simpa using this
    · right
      exact ih h

theorem existsMatch_append_left (p l : List Char) (h : existsMatch l = true) :
    existsMatch (p ++ l) = true := by
  induction p with
  | nil => simpa using h
  | cons c p2 ih =>
    rw [List.cons_append, existsMatch]
    simp only [Bool.or_eq_true]
    right
    exact ih

theorem extractLoopF_snd_nil (fuel : Nat) :
    ∀ l, l.length ≤ fuel →
      ((extractLoopF fuel l).2 = [] ↔ existsMatch l = false) := by
  induction fuel with
  | zero =>
    intro l h
    have : l = [] := List.length_eq_zero.mp (Nat.le_zero.mp h)
    subst this
    simp [extractLoopF, existsMatch]
  | succ f ih =>
    intro l h
    cases l with
    | nil => simp [extractLoopF, existsMatch]
    | cons c rest =>
      cases hm : matchAt (c :: rest) with
      | some p =>
        obtain ⟨m, r⟩ := p
        simp [extractLoopF, hm, existsMatch]
      | none =>
        simp only [List.length_cons] at h
        simp only [extractLoopF, hm, existsMatch]
        simpa using ih rest (by omega)

theorem extractLoop_snd_nil (l : List Char) :
    (extractLoop l).2 = [] ↔ existsMatch l = false :=
  extractLoopF_snd_nil l.length l (Nat.le_refl _)

theorem findClose_append_closer :
    ∀ m, findClose m = none → findClose (m ++ ['*', '/']) = some [] := by
  intro m
  induction m with
  | nil => intro _; rfl
  | cons a tail ih =>
    intro h
    cases tail with
    | nil =>
      show findClose (a :: '*' :: ['/']) = some []
      rw [findClose]
      rw [if_neg (by simp)]
      rfl
    | cons b rest =>
      rw [findClose] at h
      split at h
      · exact Option.noConfusion h
      · rename_i hab
        show findClose (a :: b :: (rest ++ ['*', '/'])) = some []
        rw [findClose]
        rw [if_neg hab]
        exact ih h

/-- C4: a scrollbar rule block lying entirely inside a `/* ... */` block
comment is not extracted by `extractScrollbars` (which strips comments
first, ThemeManager.js lines 75-91), while running the scrollbar regex
directly on the raw input without prior stripping does extract a match.
Stated for every comment interior `m` that contains no premature `*/`
closer and in which the scrollbar regex matches. -/
theorem scrollbarRule_inside_comment (m : List Char)
    (h1 : findClose m = none) (h2 : (extractLoop m).2 ≠ []) :
    (extractScrollbars (('/' :: '*' :: m) ++ ['*', '/'])).scrollbar = [] ∧
    (extractLoop (('/' :: '*' :: m) ++ ['*', '/'])).2 ≠ [] := by
  constructor
  · have e : ('/' :: '*' :: m) ++ ['*', '/'] = '/' :: '*' :: (m ++ ['*', '/']) := by
      simp
    have hs : stripComments (('/' :: '*' :: m) ++ ['*', '/']) = [] := by
      rw [e, stripComments_cons2, findClose_append_closer m h1]
      simp [stripComments_nil]
    unfold extractScrollbars
    rw [hs]
    rfl
  · have hm : existsMatch m = true := by
      by_contra hc
      simp at hc
      exact h2 ((extractLoop_snd_nil m).mpr hc)
    have hmt : existsMatch (m ++ ['*', '/']) = true :=
      existsMatch_append_right m _ hm
    have h3 : existsMatch (('/' :: '*' :: m) ++ ['*', '/']) = true := by
      have := existsMatch_append_left ['/', '*'] (m ++ ['*', '/']) hmt
      simpa using this
    intro hnil
    have hfalse := (extractLoop_snd_nil _).mp hnil
    rw [h3] at hfalse
    exact Bool.noConfusion hfalse

/-- A concrete scrollbar rule block, used as comment interior. -/
def sbRuleExample : List Char := "a::-webkit-scrollbar\x7bx\x7d".data

/-- Witness for C4 at the concrete interior `a::-webkit-scrollbar{x}`. -/
theorem scrollbarRule_inside_comment_witness :
    findClose sbRuleExample = none ∧
    (extractLoop sbRuleExample).2 ≠ [] ∧
    ((extractScrollbars (('/' :: '*' :: sbRuleExample) ++ ['*', '/'])).scrollbar = [] ∧
      (extractLoop (('/' :: '*' :: sbRuleExample) ++ ['*', '/'])).2 ≠ []) :=
  ⟨by decide, by decide,
    scrollbarRule_inside_comment sbRuleExample (by decide) (by decide)⟩

/-- Model of `fileName.substring(0, fileName.lastIndexOf('.'))` (ThemeManager.js
lines 40 and 54): everything before the last dot; the empty string when the
name has no dot (lastIndexOf yields -1 and substring clamps it to 0). -/
def baseName (l : List Char) : List Char :=
  ((l.reverse.dropWhile (fun c => c != '.')).drop 1).reverse

/-- The global dash-to-space replace step of `toDisplayName` (line 54). -/
def dashToSpace (c : Char) : Char := if c = '-' then ' ' else c

/-- One step of the `_.each` loop of `toDisplayName` (lines 57-59):
`part[0].toUpperCase() + part.substring(1)`. On an empty part, `part[0]`
is undefined and the call throws, modelled as `none`. -/
def capitalizeFirst : List Char → Option (List Char)
  | [] => none
  | c :: rest => some (c.toUpper :: rest)

/-- The `_.each` loop of `toDisplayName` over all parts: throws (none) as
soon as one part is empty. -/
def mapCap : List (List Char) → Option (List (List Char))
  | [] => some []
  | p :: rest =>
    match capitalizeFirst p, mapCap rest with
    | some c, some cs => some (c :: cs)
    | _, _ => none

/-- Model of `toDisplayName` (ThemeManager.js lines 53-62): strip the
extension, turn dashes into spaces, split on single spaces (JS
`"".split(" ") = [""]`, and consecutive separators yield empty parts),
capitalize the first character of every part, and re-join with spaces.
`none` models the TypeError thrown on an empty part. -/
def toDisplayName (fileName : List Char) : Option (List Char) :=
  let parts := ((baseName fileName).map dashToSpace).splitOn ' '
  match mapCap parts with
  | none => none
  | some ps => some (List.intercalate [' '] ps)

/-- The `Theme` entity (ThemeManager.js lines 34-42) together with the two
fields mutated later by `loadCurrentThemes`: `scrollbar` (line 182) and
`css`, the applied style node handle (line 197), modelled as a numeric
handle. -/
structure Theme where
  file : List Char
  displayName : List Char
  name : List Char
  className : List Char
  scrollbar : List (List Char)
  css : Option Nat
deriving DecidableEq

/-- The `options` argument of the Theme constructor (`title`, `name`,
`className`, lines 39-41). A JS falsy override (absent or empty string)
is modelled as `none`. -/
structure ThemeOptions where
  title : Option (List Char) := none
  name : Option (List Char) := none
  className : Option (List Char) := none
deriving DecidableEq

/-- Model of the Theme constructor (ThemeManager.js lines 34-42):
`displayName = options.title || toDisplayName(fileName)`,
`name = options.name || fileName.substring(0, lastIndexOf('.'))`,
`className = options.className || "theme-" + name`. Returns `none` when
`toDisplayName` throws (no title override and an empty hyphen part). -/
def mkTheme (fileName : List Char) (opts : ThemeOptions) : Option Theme :=
  let nm := match opts.name with
    | some n => n
    | none => baseName fileName
  match (match opts.title with
         | some s => some s
         | none => toDisplayName fileName) with
  | none => none
  | some d =>
    some { file := fileName, displayName := d, name := nm,
           className := match opts.className with
             | some c => c
             | none => "theme-".data ++ nm,
           scrollbar := [], css := none }

/-- The global `loadedThemes` registry (line 20), keyed by theme name. -/
abbrev Reg := List Char → Option Theme

/-- `defaultTheme = "default"` (line 21). -/
def defaultThemeName : List Char := "default".data

/-- Registration `loadedThemes[theme.name] = theme` (line 258). -/
def updateReg (reg : Reg) (n : List Char) (t : Theme) : Reg :=
  fun k => if k = n then some t else reg k

/-- Model of `getCurrentThemes` (ThemeManager.js lines 212-216): map each
preferred name to `loadedThemes[item] || loadedThemes[defaultTheme]`
(themes are objects, hence truthy). -/
def getCurrentThemes (reg : Reg) (prefThemes : List (List Char)) :
    List (Option Theme) :=
  prefThemes.map (fun nm =>
    match reg nm with
    | some t => some t
    | none => reg defaultThemeName)

/-- Observable collaborator calls of the refresh pipeline: source reads
(`FileUtils.readAsText`), stylesheet injection
(`ExtensionUtils.addEmbeddedStyleSheet`), removal of an injected node
(`$(theme.css).remove()`), storing the new handle (`theme.css =
styleNode`), and the view updates performed by `refresh`. -/
inductive Ev where
  | read (name : List Char)
  | insert (h : Nat)
  | remove (h : Nat)
  | store (h : Nat)
  | setDocumentMode
  | updateThemes
  | refreshEditor
deriving DecidableEq

/-- The scoping wrapper handed to the less parser by `lessifyTheme`
(ThemeManager.js line 110): `"." + theme.className + "{" + content + "}"`. -/
def lessWrap (className content : List Char) : List Char :=
  ('.' :: className) ++ ('{' :: content) ++ ['}']

/-- Model of the one-theme promise chain inside `loadCurrentThemes`
(ThemeManager.js lines 177-199): read the source (`readResult` is the
read oracle's answer), extract scrollbars and store them on the theme
(line 182 - before compilation), compile via the less parser oracle
applied to the scoped wrapper, inject the compiled style obtaining
`newHandle`, then remove the previous `theme.css` node (if any) and store
the new handle. Returns the updated theme, the event trace, and whether
the chain resolved. -/
def loadAndCompileOne (readResult : Except (List Char) (List Char))
    (parse : List Char → Except (List Char) (List Char))
    (newHandle : Nat) (t : Theme) : Theme × List Ev × Bool :=
  match readResult with
  | .error _ => (t, [Ev.read t.name], false)
  | .ok content =>
    let ex := extractScrollbars content
    let t1 := { t with scrollbar := ex.scrollbar }
    match parse (lessWrap t1.className ex.content) with
    | .error _ => (t1, [Ev.read t.name], false)
    | .ok _ =>
      let removeEvs := match t1.css with
        | some old => [Ev.remove old]
        | none => []
      ({ t1 with css := some newHandle },
        Ev.read t.name :: Ev.insert newHandle :: (removeEvs ++ [Ev.store newHandle]),
        true)

/-- Model of `loadCurrentThemes` (lines 176-203) over the resolved active
selection, sequentialized: each selected theme runs its chain and is
re-registered under its name; an undefined selection entry (name and
default both unregistered) makes the JS code throw synchronously on
`theme.file`, modelled as `none`. The final Bool models `$.when`:
true only when every chain resolved. -/
def loadList (readO : List Char → Except (List Char) (List Char))
    (parse : List Char → Except (List Char) (List Char))
    (handleO : List Char → Nat) :
    List (Option Theme) → Reg → Option (Reg × List Ev × Bool)
  | [], reg => some (reg, [], true)
  | none :: _, _ => none
  | some t :: rest, reg =>
    let r := loadAndCompileOne (readO t.name) parse (handleO t.name) t
    match loadList readO parse handleO rest (updateReg reg r.1.name r.1) with
    | none => none
    | some (reg2, evs2, ok2) => some (reg2, r.2.1 ++ evs2, r.2.2 && ok2)

/-- The view updates of `refresh`'s done-callback (lines 226-234):
`ThemeView.setDocumentMode(cm)`, `ThemeView.updateThemes(cm)` and the
deferred `refreshEditor(cm)`; nothing when there is no active editor. -/
def viewEvs : Option Unit → List Ev
  | none => []
  | some _ => [Ev.setDocumentMode, Ev.updateThemes, Ev.refreshEditor]

/-- Model of `refresh(force)` (ThemeManager.js lines 224-236):
`$.when(force && loadCurrentThemes()).done(...)`. With falsy `force` the
themes are not reloaded and only the view updates run. With `force` true
the whole selection is reloaded first; a rejected chain skips the
done-callback, and a synchronous throw (undefined selection entry)
propagates (`none`). -/
def refresh (force : Bool)
    (readO parse : List Char → Except (List Char) (List Char))
    (handleO : List Char → Nat) (prefThemes : List (List Char))
    (reg : Reg) (editor : Option Unit) : Option (Reg × List Ev) :=
  match force with
  | true =>
    match loadList readO parse handleO (getCurrentThemes reg prefThemes) reg with
    | none => none
    | some (reg2, evs, ok) =>
      match ok with
      | true => some (reg2, evs ++ viewEvs editor)
      | false => some (reg2, evs)
  | false => some (reg, viewEvs editor)

/-- How `loadFile`'s deferred settles. `thrown` models a synchronous
TypeError escaping the `file.exists` callback (so the deferred never
settles and the exception surfaces instead). -/
inductive LoadFileOutcome where
  | resolved (t : Theme)
  | rejected (e : List Char)
  | unsettled
  | thrown
deriving DecidableEq

/-- Model of `loadFile` (ThemeManager.js lines 247-275): the
`file.exists(callback)` collaborator answers with `(err, exists)`. When
`exists` is truthy the Theme is constructed (which may throw), registered,
and an immediate `refresh(true)` is triggered exactly when the new name is
in the current `themes` preference; then the deferred resolves. Otherwise,
when `err` is truthy the deferred rejects with it; when neither, nothing
ever settles. Returns (outcome, resulting registry, refresh triggered). -/
def loadFile (fileName : List Char) (opts : ThemeOptions)
    (err : Option (List Char)) (fileExists : Bool)
    (reg : Reg) (prefThemes : List (List Char)) :
    LoadFileOutcome × Reg × Bool :=
  match fileExists with
  | true =>
    match mkTheme fileName opts with
    | none => (.thrown, reg, false)
    | some t => (.resolved t, updateReg reg t.name t, prefThemes.contains t.name)
  | false =>
    match err with
    | some e => (.rejected e, reg, false)
    | none => (.unsettled, reg, false)

/-- A directory entry as seen by `readContent` (lines 306-314). -/
structure DirEntry where
  name : List Char
  isFile : Bool
deriving DecidableEq

/-- Modelled from the spec: the host collaborator
`FileUtils.getFileExtension` (not part of this repository) - the text
after the last dot, empty when the name has no dot. -/
def getFileExtension (l : List Char) : List Char :=
  if l.contains '.' then (l.reverse.takeWhile (fun c => c != '.')).reverse else []

/-- `validExtensions = ["css", "less"]` (line 25). -/
def validExtensions : List (List Char) := ["css".data, "less".data]

/-- Model of `isFileTypeValid` (ThemeManager.js lines 130-133). -/
def isFileTypeValid (e : DirEntry) : Bool :=
  e.isFile && validExtensions.contains (getFileExtension e.name)

/-- Filesystem operations observable from `loadDirectory`: the directory
listing (`getContents`) and the per-file `loadFile` calls. -/
inductive FsOp where
  | getContents (path : List Char)
  | fileLoad (path : List Char)
deriving DecidableEq

/-- The `{path, error}` rejection payload of `loadDirectory`. -/
structure PathError where
  path : Option (List Char)
  error : List Char
deriving DecidableEq

inductive LoadDirOutcome where
  | rejected (e : PathError)
  | loaded (files : List (List Char))
deriving DecidableEq

/-- Model of `loadDirectory` (ThemeManager.js lines 296-341): a falsy
`path` (absent or empty) rejects with `{path, error: "Path not defined"}`
before any filesystem access; otherwise the directory listing oracle
answers, a listing error rejects with `{path, err}`, and on success the
valid stylesheet entries are loaded via `loadFile` (recorded as `fileLoad`
operations on `path + "/" + name`). -/
def loadDirectory (path : Option (List Char))
    (listing : Except (List Char) (List DirEntry)) :
    LoadDirOutcome × List FsOp :=
  match path with
  | none => (.rejected ⟨none, "Path not defined".data⟩, [])
  | some p =>
    if p = [] then (.rejected ⟨some [], "Path not defined".data⟩, [])
    else
      match listing with
      | .error err => (.rejected ⟨some p, err⟩, [FsOp.getContents p])
      | .ok entries =>
        let files := (entries.filter isFileTypeValid).map DirEntry.name
        (.loaded files,
          FsOp.getContents p :: files.map (fun f => FsOp.fileLoad (p ++ '/' :: f)))

/-- A registered theme with an applied style handle (node 5). -/
def themeA0 : Theme :=
  { file := "a.css".data, displayName := "A".data, name := "a".data,
    className := "theme-a".data, scrollbar := [], css := some 5 }

/-- A less-parser oracle that always fails (compile failure). -/
def failParse : List Char → Except (List Char) (List Char) :=
  fun _ => .error ("bad".data)

/-- A less-parser oracle that always succeeds. -/
def okParse : List Char → Except (List Char) (List Char) :=
  fun _ => .ok ("c".data)

/-- A theme source containing a scrollbar rule. -/
def sbSource : List Char := "x::-webkit-scrollbar\x7by\x7d".data

/-- C1 counterexample: the fields are not mutated as an atomic pair. When
the compile step of the `loadCurrentThemes` chain fails, `theme.css` keeps
its previous value but `theme.scrollbar` has already been overwritten
(line 182 runs before `lessifyTheme`), so the two fields do not both
retain their values from before the operation. -/
theorem scrollbar_css_pair_not_atomic :
    (loadAndCompileOne (Except.ok sbSource) failParse 9 themeA0).1.css =
      themeA0.css ∧
    (loadAndCompileOne (Except.ok sbSource) failParse 9 themeA0).1.scrollbar ≠
      themeA0.scrollbar := by
  decide

/-- C1 (amended): when the compile step of the `loadCurrentThemes` chain
fails, `theme.css` (the applied style handle) retains its previous value
and no style node is inserted, removed or stored; but `theme.scrollbar`
has already been replaced by the extraction result of the newly read
content. A read failure leaves the whole theme untouched. -/
theorem compile_failure_css_unchanged
    (parse : List Char → Except (List Char) (List Char))
    (newHandle : Nat) (t : Theme) (content e : List Char)
    (h : parse (lessWrap t.className (extractScrollbars content).content) =
      .error e) :
    (loadAndCompileOne (.ok content) parse newHandle t).1.css = t.css ∧
    (loadAndCompileOne (.ok content) parse newHandle t).1.scrollbar =
      (extractScrollbars content).scrollbar ∧
    (loadAndCompileOne (.ok content) parse newHandle t).2.1 = [Ev.read t.name] ∧
    (∀ e2, (loadAndCompileOne (.error e2) parse newHandle t).1 = t) := by
  refine ⟨?_, ?_, ?_, ?_⟩ <;> simp [loadAndCompileOne, h]

/-- Witness for C1 (amended) at a concrete failing compile. -/
theorem compile_failure_css_unchanged_witness :
    (loadAndCompileOne (.ok sbSource) failParse 9 themeA0).1.css = themeA0.css ∧
    (loadAndCompileOne (.ok sbSource) failParse 9 themeA0).1.scrollbar =
      (extractScrollbars sbSource).scrollbar ∧
    (loadAndCompileOne (.ok sbSource) failParse 9 themeA0).2.1 =
      [Ev.read themeA0.name] ∧
    (∀ e2, (loadAndCompileOne (.error e2) failParse 9 themeA0).1 = themeA0) :=
  compile_failure_css_unchanged failParse 9 themeA0 sbSource ("bad".data) rfl

/-- C2: in the `loadCurrentThemes` chain, when the theme already has an
applied style handle and read and compile succeed, the event trace is
exactly read, insert of the new node, remove of the old node, store of the
new handle: the new stylesheet is inserted strictly before the previous
handle is released, the old node is never removed before the insertion,
and the stored handle is the newly inserted one, stored only afterwards. -/
theorem insert_before_remove
    (parse : List Char → Except (List Char) (List Char))
    (newHandle old : Nat) (t : Theme) (content css : List Char)
    (h1 : t.css = some old)
    (h2 : parse (lessWrap t.className (extractScrollbars content).content) =
      .ok css) :
    (loadAndCompileOne (.ok content) parse newHandle t).2.1 =
      [Ev.read t.name, Ev.insert newHandle, Ev.remove old, Ev.store newHandle] ∧
    (loadAndCompileOne (.ok content) parse newHandle t).1.css =
      some newHandle := by
  refine ⟨?_, ?_⟩ <;> simp [loadAndCompileOne, h1, h2]

/-- Witness for C2 at a concrete successful reload over an applied theme. -/
theorem insert_before_remove_witness :
    (loadAndCompileOne (.ok sbSource) okParse 9 themeA0).2.1 =
      [Ev.read themeA0.name, Ev.insert 9, Ev.remove 5, Ev.store 9] ∧
    (loadAndCompileOne (.ok sbSource) okParse 9 themeA0).1.css = some 9 :=
  insert_before_remove okParse 9 5 themeA0 sbSource ("c".data) (by decide) rfl

/-- C5 counterexample: two files with different names but the same base
name (`a.css` and `a.less`) derive the same `className` (`theme-a`), so
differing file names do not guarantee distinct scope classes. -/
theorem className_collision_different_fileNames :
    ("a.css".data ≠ "a.less".data) ∧
    (mkTheme ("a.css".data) {}).isSome = true ∧
    (mkTheme ("a.css".data) {}).map Theme.className =
      (mkTheme ("a.less".data) {}).map Theme.className := by
  decide

/-- C5 (amended): for themes constructed without overrides, the derived
`className` is injective in the file's base name (the name up to the last
dot): files whose base names differ never collide, even when the display
names coincide; files differing only in extension share one name and one
`className` (and replace each other in the registry). -/
theorem className_injective_on_baseName (f1 f2 : List Char) (t1 t2 : Theme)
    (h1 : mkTheme f1 {} = some t1) (h2 : mkTheme f2 {} = some t2)
    (hb : baseName f1 ≠ baseName f2) : t1.className ≠ t2.className := by
  unfold mkTheme at h1 h2
  cases hd1 : toDisplayName f1 with
  | none => simp [hd1] at h1
  | some d1 =>
    cases hd2 : toDisplayName f2 with
    | none => simp [hd2] at h2
    | some d2 =>
      simp [hd1] at h1
      simp [hd2] at h2
      intro hc
      rw [← h1, ← h2] at hc
      simp at hc
      exact hb hc

/-- A theme as constructed from `a.css` with no overrides. -/
def themeACss : Theme :=
  { file := "a.css".data, displayName := "A".data, name := "a".data,
    className := "theme-a".data, scrollbar := [], css := none }

/-- A theme as constructed from `b.css` with no overrides. -/
def themeBCss : Theme :=
  { file := "b.css".data, displayName := "B".data, name := "b".data,
    className := "theme-b".data, scrollbar := [], css := none }

/-- Witness for C5 (amended) at the concrete files `a.css` and `b.css`. -/
theorem className_injective_on_baseName_witness :
    themeACss.className ≠ themeBCss.className :=
  className_injective_on_baseName ("a.css".data) ("b.css".data)
    themeACss themeBCss (by decide) (by decide) (by decide)

/-- C6: `getCurrentThemes` maps each requested name to its registry entry,
substituting the entry registered under the default name for every miss;
in particular a single unregistered name resolves to the default theme. -/
theorem getCurrentThemes_resolution (reg : Reg) (nm : List Char)
    (names : List (List Char)) (h : reg nm = none) :
    getCurrentThemes reg [nm] = [reg defaultThemeName] ∧
    getCurrentThemes reg names =
      names.map (fun x =>
        match reg x with
        | some u => some u
        | none => reg defaultThemeName) := by
  refine ⟨?_, rfl⟩
  simp [getCurrentThemes, h]

/-- A registry holding only the default theme. -/
def regDefaultOnly : Reg :=
  fun k => if k = defaultThemeName then some themeACss else none

/-- Witness for C6: a single unregistered name resolves to the default. -/
theorem getCurrentThemes_resolution_witness :
    getCurrentThemes regDefaultOnly ["nonexistent".data] =
      [regDefaultOnly defaultThemeName] ∧
    getCurrentThemes regDefaultOnly ["nonexistent".data] =
      ["nonexistent".data].map (fun x =>
        match regDefaultOnly x with
        | some u => some u
        | none => regDefaultOnly defaultThemeName) :=
  getCurrentThemes_resolution regDefaultOnly ("nonexistent".data)
    ["nonexistent".data] (by decide)

/-- C7: `loadDirectory` with an absent or empty path rejects with the
structured `{path, error}` configuration error and performs no filesystem
operation at all (empty operation trace: no listing, no file load),
whatever the listing oracle would have answered. -/
theorem loadDirectory_empty_path (listing : Except (List Char) (List DirEntry)) :
    loadDirectory none listing =
      (LoadDirOutcome.rejected ⟨none, "Path not defined".data⟩, []) ∧
    loadDirectory (some []) listing =
      (LoadDirOutcome.rejected ⟨some [], "Path not defined".data⟩, []) :=
  ⟨rfl, rfl⟩

/-- C8: a light reapply, `refresh` with `force` false, never invokes the
reload pipeline: the registry (hence every theme's `scrollbar` and `css`)
is returned unchanged and the event trace contains only the view updates -
no source read, and no style-node insert, remove or store. -/
theorem refresh_light_no_reload
    (readO parse : List Char → Except (List Char) (List Char))
    (handleO : List Char → Nat) (prefThemes : List (List Char))
    (reg : Reg) (editor : Option Unit) :
    refresh false readO parse handleO prefThemes reg editor =
      some (reg, viewEvs editor) ∧
    (∀ n, Ev.read n ∉ viewEvs editor) ∧
    (∀ hnd, Ev.insert hnd ∉ viewEvs editor ∧ Ev.remove hnd ∉ viewEvs editor ∧
      Ev.store hnd ∉ viewEvs editor) := by
  refine ⟨rfl, ?_, ?_⟩
  · intro n
    cases editor <;> simp [viewEvs]
  · intro hnd
    cases editor <;> simp [viewEvs]

/-- C9 counterexample: the existence check's callback answers are tested
`exists` first (line 256), so when the check reports an error together
with existence, `loadFile` resolves instead of rejecting - it is not the
case that it rejects exactly when an error is reported. -/
theorem loadFile_err_with_exists_resolves :
    (loadFile ("a.css".data) {} (some ("e".data)) true (fun _ => none) []).1 =
      LoadFileOutcome.resolved themeACss := by
  decide

/-- C9 (amended): `loadFile` rejects with the reported error exactly when
the existence check reports an error without reporting existence; when it
reports existence and theme construction does not throw, it resolves with
the Theme, which is registered under its name; when neither existence nor
an error is reported, the deferred never settles. -/
theorem loadFile_outcomes (fileName : List Char) (opts : ThemeOptions)
    (e : List Char) (err : Option (List Char)) (t : Theme) (reg : Reg)
    (prefThemes : List (List Char)) (h : mkTheme fileName opts = some t) :
    (loadFile fileName opts (some e) false reg prefThemes).1 =
      LoadFileOutcome.rejected e ∧
    (loadFile fileName opts err true reg prefThemes).1 =
      LoadFileOutcome.resolved t ∧
    (loadFile fileName opts err true reg prefThemes).2.1 t.name = some t ∧
    (loadFile fileName opts none false reg prefThemes).1 =
      LoadFileOutcome.unsettled := by
  refine ⟨rfl, ?_, ?_, rfl⟩ <;> simp [loadFile, h, updateReg]

/-- Witness for C9 (amended) at the concrete file `b.css`. -/
theorem loadFile_outcomes_witness :
    (loadFile ("b.css".data) {} (some ("e".data)) false regDefaultOnly []).1 =
      LoadFileOutcome.rejected ("e".data) ∧
    (loadFile ("b.css".data) {} none true regDefaultOnly []).1 =
      LoadFileOutcome.resolved themeBCss ∧
    (loadFile ("b.css".data) {} none true regDefaultOnly []).2.1
      themeBCss.name = some themeBCss ∧
    (loadFile ("b.css".data) {} none false regDefaultOnly []).1 =
      LoadFileOutcome.unsettled :=
  loadFile_outcomes ("b.css".data) {} ("e".data) none themeBCss
    regDefaultOnly [] (by decide)

theorem mapCap_none_of_mem : ∀ l, [] ∈ l → mapCap l = none := by
  intro l h
  induction l with
  | nil => simp at h
  | cons p rest ih =>
    rw [mapCap]
    rcases List.mem_cons.mp h with h1 | h1
    · rw [← h1]
      simp [capitalizeFirst]
    · rw [ih h1]
      cases hc : capitalizeFirst p <;> simp

/-- C10: display-name derivation is not total: whenever the de-hyphenated
base name has an empty hyphen-separated part (consecutive hyphens, a
leading hyphen, or an empty base name), `toDisplayName` accesses the first
character of an empty string and throws; consequently a Theme without a
title override cannot be constructed, and `loadFile` on such an existing
file throws instead of resolving or rejecting, leaving the registry
unchanged. -/
theorem toDisplayName_partial (fileName : List Char) (opts : ThemeOptions)
    (err : Option (List Char)) (reg : Reg) (prefThemes : List (List Char))
    (h1 : opts.title = none)
    (h2 : [] ∈ ((baseName fileName).map dashToSpace).splitOn ' ') :
    toDisplayName fileName = none ∧
    mkTheme fileName opts = none ∧
    (loadFile fileName opts err true reg prefThemes).1 =
      LoadFileOutcome.thrown ∧
    (loadFile fileName opts err true reg prefThemes).2.1 = reg := by
  have hd : toDisplayName fileName = none := by
    unfold toDisplayName
    simp [mapCap_none_of_mem _ h2]
  have hm : mkTheme fileName opts = none := by
    unfold mkTheme
    simp [h1, hd]
  exact ⟨hd, hm, by simp [loadFile, hm], by simp [loadFile, hm]⟩

/-- Witness for C10 at the concrete file `a--b.css`. -/
theorem toDisplayName_partial_witness :
    toDisplayName ("a--b.css".data) = none ∧
    mkTheme ("a--b.css".data) {} = none ∧
    (loadFile ("a--b.css".data) {} none true regDefaultOnly []).1 =
      LoadFileOutcome.thrown ∧
    (loadFile ("a--b.css".data) {} none true regDefaultOnly []).2.1 =
      regDefaultOnly :=
  toDisplayName_partial ("a--b.css".data) {} none regDefaultOnly []
    (by decide) (by decide)
